import Mathlib

/-!
Verification of the HyperLogLog cardinality estimator from src/lib.rs.

Modelling conventions:
- Register contents are natural numbers (the Rust u32 values never exceed
  64, the leading-zero count of a u64).
- Items enter the structure only through their deterministic 64-bit hash,
  so an update is modelled on the hash value directly.
- f64 arithmetic is modelled exactly: the source only combines decimal
  literals and dyadic powers with field operations, so the raw estimate
  lives in the rationals; the natural-logarithm and square-root paths live
  in the reals.
- The Rust add panics on an empty register array (remainder by zero); the
  fallible entry point add returns an Option, with the in-bounds body
  factored out as addCore.
-/

structure HyperLogLog where
  registers : List Nat

namespace HyperLogLog

/-- Bit length of a natural number: zero for zero, otherwise one more
than the floor base-2 logarithm. -/
def bitLength (h : Nat) : Nat := if h = 0 then 0 else Nat.log2 h + 1

/-- Leading-zero count of a 64-bit word, as computed by the method
leading_zeros on u64 in the source: 64 minus the bit length. -/
def clz64 (h : Nat) : Nat := 64 - bitLength h

/-- Constructor new from src/lib.rs: m registers, all zero.  The hasher
field of the Rust struct is re-created at the start of every add and
carries no state across calls, so it is not part of the model. -/
def new (m : Nat) : HyperLogLog := ⟨List.replicate m 0⟩

/-- Register index computed inside add: the hash value modulo the number
of registers (the source binds it to a local named m). -/
def hllIndex (s : HyperLogLog) (h : Nat) : Nat := h % s.registers.length

/-- Body of add from src/lib.rs on the 64-bit hash h of the item: raise
the register at index h mod m to the leading-zero count of h when that is
larger.  List.getD and List.set are used for the accesses; both agree
with the Rust indexing whenever the register array is nonempty, which is
exactly when the Rust code does not panic. -/
def addCore (s : HyperLogLog) (h : Nat) : HyperLogLog :=
  let m := hllIndex s h
  let v := clz64 h
  if s.registers.getD m 0 < v then ⟨s.registers.set m v⟩ else s

/-- Update add from src/lib.rs.  With zero registers the Rust code panics
on the remainder by zero; that failure is modelled as none. -/
def add (s : HyperLogLog) (h : Nat) : Option HyperLogLog :=
  if s.registers.length = 0 then none else some (addCore s h)

/-- Sequence of updates: addCore folded over a list of item hashes. -/
def addSeq (s : HyperLogLog) (hs : List Nat) : HyperLogLog :=
  hs.foldl addCore s

/-- Bias constant alpha from src/lib.rs. -/
def alpha (m : Nat) : ℚ :=
  if m = 16 then 0.673
  else if m = 32 then 0.697
  else if m = 64 then 0.709
  else 0.7213 / (1 + 1.079 / (m : ℚ))

/-- Sum over all registers of 2 ^ (-registers[j]), computed in the source
by mapping powf over the register iterator; for a natural exponent mj the
f64 value of 2 to the power -mj is exactly 1 / 2 ^ mj. -/
def regSum (s : HyperLogLog) : ℚ :=
  (s.registers.map (fun mj => 1 / 2 ^ mj)).sum

/-- Raw estimate hll_cardinality from src/lib.rs:
alpha(m) * m * m * 2 * z with z = 1 / sum.  The factor 2 is taken
verbatim from the source; the println there has no effect on the value. -/
def hll_cardinality (s : HyperLogLog) : ℚ :=
  let m := s.registers.length
  let z := 1 / regSum s
  alpha m * (m : ℚ) * (m : ℚ) * 2 * z

/-- Linear-counting fallback linear_count from src/lib.rs:
m * ln (m / zero_count). -/
noncomputable def linear_count (s : HyperLogLog) (zero_count : Nat) : ℝ :=
  let m : ℝ := (s.registers.length : ℝ)
  m * Real.log (m / (zero_count : ℝ))

/-- Estimate count from src/lib.rs: return the raw estimate when it
exceeds 2.5 * m, otherwise fall back to linear counting unless no
register is zero. -/
noncomputable def count (s : HyperLogLog) : ℝ :=
  let m := s.registers.length
  let est := hll_cardinality s
  if 2.5 * (m : ℚ) < est then (est : ℝ)
  else
    let zero_count := (s.registers.filter (fun n => n == 0)).length
    if zero_count = 0 then (est : ℝ)
    else linear_count s zero_count

/-- Error bound error_estimate from src/lib.rs: 1.04 / sqrt m. -/
noncomputable def error_estimate (s : HyperLogLog) : ℝ :=
  1.04 / Real.sqrt (s.registers.length : ℝ)

lemma addCore_eq (l : List Nat) (h : Nat) :
    addCore ⟨l⟩ h =
      if l.getD (h % l.length) 0 < clz64 h
      then ⟨l.set (h % l.length) (clz64 h)⟩ else ⟨l⟩ := rfl

lemma addCore_length (s : HyperLogLog) (h : Nat) :
    (addCore s h).registers.length = s.registers.length := by
  obtain ⟨l⟩ := s
  rw [addCore_eq]
  split
  · simp
  · rfl

lemma addSeq_cons (s : HyperLogLog) (h : Nat) (t : List Nat) :
    addSeq s (h :: t) = addSeq (addCore s h) t := rfl

lemma addSeq_length (s : HyperLogLog) (hs : List Nat) :
    (addSeq s hs).registers.length = s.registers.length := by
  induction hs generalizing s with
  | nil => rfl
  | cons h t ih => rw [addSeq_cons, ih, addCore_length]

lemma addCore_getD (s : HyperLogLog) (h j : Nat) (hm : s.registers.length ≠ 0) :
    (addCore s h).registers.getD j 0 =
      if j = hllIndex s h then max (s.registers.getD j 0) (clz64 h)
      else s.registers.getD j 0 := by
  obtain ⟨l⟩ := s
  have hidx : h % l.length < l.length := Nat.mod_lt _ (Nat.pos_of_ne_zero hm)
  rw [addCore_eq]
  by_cases hcond : l.getD (h % l.length) 0 < clz64 h
  · rw [if_pos hcond]
    by_cases hj : j = hllIndex ⟨l⟩ h
    · rw [if_pos hj]
      have hj' : j = h % l.length := hj
      subst hj'
      simp only [List.getD_eq_getElem?_getD] at hcond ⊢
      rw [List.getElem?_set_self hidx, Option.getD_some]
      exact (Nat.max_eq_right (Nat.le_of_lt hcond)).symm
    · rw [if_neg hj]
      have hj' : h % l.length ≠ j := fun e => hj e.symm
      simp only [List.getD_eq_getElem?_getD, List.getElem?_set_ne hj']
  · rw [if_neg hcond]
    by_cases hj : j = hllIndex ⟨l⟩ h
    · rw [if_pos hj]
      have hj' : j = h % l.length := hj
      subst hj'
      exact (Nat.max_eq_left (Nat.not_lt.mp hcond)).symm
    · rw [if_neg hj]

lemma addCore_getD_le (s : HyperLogLog) (h j : Nat) :
    s.registers.getD j 0 ≤ (addCore s h).registers.getD j 0 := by
  by_cases hm : s.registers.length = 0
  · obtain ⟨l⟩ := s
    have hnil : l = [] := List.length_eq_zero.mp hm
    subst hnil
    rw [addCore_eq]
    split <;> simp
  · rw [addCore_getD s h j hm]
    split
    · exact Nat.le_max_left _ _
    · exact Nat.le_refl _

lemma alpha_le_five_quarters (m : Nat) : alpha m ≤ 1.25 := by
  unfold alpha
  split
  · norm_num
  split
  · norm_num
  split
  · norm_num
  have h1 : (0 : ℚ) ≤ 1.079 / (m : ℚ) := by positivity
  have h2 : (1 : ℚ) ≤ 1 + 1.079 / (m : ℚ) := by linarith
  exact le_trans (div_le_self (by norm_num) h2) (by norm_num)

/-- Claim C2: the source constructor performs no validation.  new 0
succeeds and returns an estimator with an empty register array instead of
failing with an invalid-argument error. -/
theorem new_zero_no_failure :
    (new 0).registers = [] ∧ (new 0).registers.length = 0 :=
  ⟨rfl, rfl⟩

/-- Claim C6: the bias constant is 0.673, 0.697, 0.709 at m = 16, 32, 64
and 0.7213 / (1 + 1.079 / m) at every other m at least 1. -/
theorem alpha_table (m : Nat) (hm : 1 ≤ m)
    (h16 : m ≠ 16) (h32 : m ≠ 32) (h64 : m ≠ 64) :
    (alpha 16 = 0.673 ∧ alpha 32 = 0.697 ∧ alpha 64 = 0.709) ∧
    alpha m = 0.7213 / (1 + 1.079 / (m : ℚ)) := by
  refine ⟨⟨by norm_num [alpha], by norm_num [alpha], by norm_num [alpha]⟩, ?_⟩
  rw [alpha, if_neg h16, if_neg h32, if_neg h64]

/-- Witness for alpha_table at m = 8. -/
theorem alpha_table_witness :
    (1 ≤ 8 ∧ 8 ≠ 16 ∧ 8 ≠ 32 ∧ 8 ≠ 64) ∧
    ((alpha 16 = 0.673 ∧ alpha 32 = 0.697 ∧ alpha 64 = 0.709) ∧
      alpha 8 = 0.7213 / (1 + 1.079 / ((8 : Nat) : ℚ))) :=
  ⟨⟨by decide, by decide, by decide, by decide⟩,
    alpha_table 8 (by decide) (by decide) (by decide) (by decide)⟩

/-- Claim C1: the code computes twice the claimed raw estimate.  The
first conjunct isolates the stray factor 2 in hll_cardinality; the
remaining conjuncts evaluate both sides on the one-register state with
register value 0, where the code yields 7213 / 10395 while the formula
alpha * m ^ 2 * Z of the claim yields 7213 / 20790. -/
theorem hll_cardinality_factor_two :
    (∀ s : HyperLogLog,
        hll_cardinality s =
          2 * (alpha s.registers.length * (s.registers.length : ℚ) *
            (s.registers.length : ℚ) * (1 / regSum s))) ∧
    hll_cardinality ⟨[0]⟩ = 7213 / 10395 ∧
    alpha 1 * (1 : ℚ) * 1 * (1 / regSum ⟨[0]⟩) = 7213 / 20790 ∧
    hll_cardinality ⟨[0]⟩ ≠ alpha 1 * (1 : ℚ) * 1 * (1 / regSum ⟨[0]⟩) := by
  have hreg : regSum ⟨[0]⟩ = 1 := by norm_num [regSum]
  have halpha : alpha 1 = 7213 / 20790 := by norm_num [alpha]
  have hcar : hll_cardinality ⟨[0]⟩ = 7213 / 10395 := by
    simp only [hll_cardinality, hreg, halpha, List.length_cons, List.length_nil]
    norm_num
  refine ⟨?_, hcar, ?_, ?_⟩
  · intro s
    unfold hll_cardinality
    ring
  · rw [hreg, halpha]
    norm_num
  · rw [hcar, hreg, halpha]
    norm_num

/-- Claim C3: count applies the two-stage correction to the internal raw
estimate: the raw estimate is returned whenever it exceeds 2.5 * m, and
otherwise linear counting m * ln (m / zero_count) is returned unless
zero_count is 0, in which case the raw estimate is returned.  Proved for
every state, in particular for every state with at least one register. -/
theorem count_two_stage (s : HyperLogLog) :
    count s =
      if 2.5 * ((s.registers.length : ℚ)) < hll_cardinality s
      then ((hll_cardinality s : ℚ) : ℝ)
      else if s.registers.count 0 = 0 then ((hll_cardinality s : ℚ) : ℝ)
      else (s.registers.length : ℝ) *
        Real.log ((s.registers.length : ℝ) / (s.registers.count 0 : ℝ)) := by
  have hzc : (s.registers.filter (fun n => n == 0)).length = s.registers.count 0 := by
    rw [List.count_eq_countP, List.countP_eq_length_filter]
  unfold count linear_count
  dsimp only
  rw [hzc]

lemma addSeq_getD (hs : List Nat) :
    ∀ (s : HyperLogLog), s.registers.length ≠ 0 → ∀ i : Nat,
      (addSeq s hs).registers.getD i 0 =
        ((hs.filter (fun h => h % s.registers.length == i)).map clz64).foldl
          max (s.registers.getD i 0) := by
  induction hs with
  | nil => intro s hm i; rfl
  | cons h t ih =>
    intro s hm i
    have hlen : (addCore s h).registers.length = s.registers.length :=
      addCore_length s h
    have step := ih (addCore s h) (by rw [hlen]; exact hm) i
    rw [addSeq_cons, step, hlen, addCore_getD s h i hm]
    by_cases hj : i = hllIndex s h
    · have hb : (h % s.registers.length == i) = true := beq_iff_eq.mpr hj.symm
      rw [if_pos hj]
      simp [List.filter_cons, hb]
    · have hb : (h % s.registers.length == i) = false :=
        beq_eq_false_iff_ne.mpr (fun e => hj e.symm)
      rw [if_neg hj]
      simp [List.filter_cons, hb]

/-- Claim C5: starting from a fresh estimator, after any sequence of
updates each register holds the maximum leading-zero count among the
hashes routed to its index, 0 when none ever was, and a single update
never lowers any register. -/
theorem registers_track_max_rank (m : Nat) (hs : List Nat) (i : Nat)
    (s : HyperLogLog) (h j : Nat) (hm : 1 ≤ m) (hi : i < m) :
    (addSeq (new m) hs).registers.getD i 0 =
      ((hs.filter (fun x => x % m == i)).map clz64).foldl max 0 ∧
    s.registers.getD j 0 ≤ (addCore s h).registers.getD j 0 := by
  refine ⟨?_, addCore_getD_le s h j⟩
  have hlen : (new m).registers.length = m := List.length_replicate m 0
  have h0 : (new m).registers.getD i 0 = 0 := by
    show (List.replicate m 0).getD i 0 = 0
    rw [List.getD_eq_getElem?_getD, List.getElem?_replicate]
    split <;> rfl
  have hfold := addSeq_getD hs (new m) (by rw [hlen]; omega) i
  rw [hfold, hlen, h0]

/-- Witness for registers_track_max_rank: one register, one item of hash
0, checked together with monotonicity on a one-register state at 3. -/
theorem registers_track_max_rank_witness :
    (1 ≤ 1 ∧ 0 < 1) ∧
    ((addSeq (new 1) [0]).registers.getD 0 0 =
        (([0].filter (fun x => x % 1 == 0)).map clz64).foldl max 0 ∧
      (⟨[3]⟩ : HyperLogLog).registers.getD 0 0 ≤
        (addCore (⟨[3]⟩ : HyperLogLog) 0).registers.getD 0 0) :=
  ⟨⟨by decide, by decide⟩,
    registers_track_max_rank 1 [0] 0 ⟨[3]⟩ 0 0 (by decide) (by decide)⟩

/-- Claim C7: updating twice with the same item hash produces exactly the
state of a single update, and hence the same estimate. -/
theorem add_duplicate_idempotent (s : HyperLogLog) (h : Nat) :
    addCore (addCore s h) h = addCore s h ∧
    count (addCore (addCore s h) h) = count (addCore s h) := by
  have key : addCore (addCore s h) h = addCore s h := by
    obtain ⟨l⟩ := s
    by_cases hm : l.length = 0
    · have hnil : l = [] := List.length_eq_zero.mp hm
      subst hnil
      have he : addCore ⟨([] : List Nat)⟩ h = ⟨([] : List Nat)⟩ := by
        rw [addCore_eq]
        split <;> rfl
      rw [he, he]
    · have hidx : h % l.length < l.length := Nat.mod_lt _ (Nat.pos_of_ne_zero hm)
      by_cases hcond : l.getD (h % l.length) 0 < clz64 h
      · have h1 : addCore ⟨l⟩ h = ⟨l.set (h % l.length) (clz64 h)⟩ := by
          rw [addCore_eq, if_pos hcond]
        rw [h1, addCore_eq, if_neg (by
          rw [List.length_set, List.getD_eq_getElem?_getD,
            List.getElem?_set_self hidx, Option.getD_some]
          exact lt_irrefl _)]
      · have h1 : addCore ⟨l⟩ h = ⟨l⟩ := by rw [addCore_eq, if_neg hcond]
        rw [h1, h1]
  exact ⟨key, by rw [key]⟩

/-- Claim C8: an update touches exactly the register at index h mod m,
raising it to the maximum of its old value and the leading-zero count of
the hash; every other register and the register count are unchanged. -/
theorem add_frame_effect (s : HyperLogLog) (h j : Nat) (h64 : h < 2 ^ 64)
    (hm : 1 ≤ s.registers.length) (hj : j < s.registers.length)
    (hne : j ≠ hllIndex s h) :
    (addCore s h).registers.length = s.registers.length ∧
    (addCore s h).registers.getD (hllIndex s h) 0 =
      max (s.registers.getD (hllIndex s h) 0) (clz64 h) ∧
    (addCore s h).registers.getD j 0 = s.registers.getD j 0 := by
  have hm0 : s.registers.length ≠ 0 := by omega
  refine ⟨addCore_length s h, ?_, ?_⟩
  · rw [addCore_getD s h _ hm0, if_pos rfl]
  · rw [addCore_getD s h _ hm0, if_neg hne]

/-- Witness for add_frame_effect: two registers at 70 and 3, hash 0
mapping to index 0, untouched slot 1. -/
theorem add_frame_effect_witness :
    (0 < 2 ^ 64 ∧ 1 ≤ (⟨[70, 3]⟩ : HyperLogLog).registers.length ∧
      1 < (⟨[70, 3]⟩ : HyperLogLog).registers.length ∧
      1 ≠ hllIndex (⟨[70, 3]⟩ : HyperLogLog) 0) ∧
    ((addCore (⟨[70, 3]⟩ : HyperLogLog) 0).registers.length =
        (⟨[70, 3]⟩ : HyperLogLog).registers.length ∧
      (addCore (⟨[70, 3]⟩ : HyperLogLog) 0).registers.getD
          (hllIndex (⟨[70, 3]⟩ : HyperLogLog) 0) 0 =
        max ((⟨[70, 3]⟩ : HyperLogLog).registers.getD
          (hllIndex (⟨[70, 3]⟩ : HyperLogLog) 0) 0) (clz64 0) ∧
      (addCore (⟨[70, 3]⟩ : HyperLogLog) 0).registers.getD 1 0 =
        (⟨[70, 3]⟩ : HyperLogLog).registers.getD 1 0) :=
  ⟨⟨by decide, by decide, by decide, by decide⟩,
    add_frame_effect ⟨[70, 3]⟩ 0 1 (by decide) (by decide) (by decide)
      (by decide)⟩

/-- Claim C9: error_estimate is exactly 1.04 / sqrt m and is invariant
under any sequence of updates. -/
theorem error_estimate_formula (s : HyperLogLog) (hs : List Nat)
    (hm : 1 ≤ s.registers.length) :
    error_estimate s = 1.04 / Real.sqrt (s.registers.length : ℝ) ∧
    error_estimate (addSeq s hs) = error_estimate s := by
  refine ⟨rfl, ?_⟩
  unfold error_estimate
  rw [addSeq_length]

/-- Witness for error_estimate_formula at m = 4 with one update. -/
theorem error_estimate_formula_witness :
    (1 ≤ (new 4).registers.length) ∧
    (error_estimate (new 4) = 1.04 / Real.sqrt ((new 4).registers.length : ℝ) ∧
      error_estimate (addSeq (new 4) [0]) = error_estimate (new 4)) :=
  ⟨by decide, error_estimate_formula (new 4) [0] (by decide)⟩

/-- Claim C10: with at least one register the index h mod m is in bounds
and add succeeds, returning the updated state; with zero registers the
remainder in the source divides by zero, so add fails. -/
theorem add_index_in_bounds (s t : HyperLogLog) (h : Nat) (h64 : h < 2 ^ 64)
    (hm : 1 ≤ s.registers.length) (ht : t.registers.length = 0) :
    hllIndex s h < s.registers.length ∧
    add s h = some (addCore s h) ∧ add t h = none := by
  refine ⟨Nat.mod_lt _ (by omega), ?_, ?_⟩
  · unfold add
    rw [if_neg (by omega)]
  · unfold add
    rw [if_pos ht]

/-- Witness for add_index_in_bounds at m = 2 and m = 0 with hash 0. -/
theorem add_index_in_bounds_witness :
    (0 < 2 ^ 64 ∧ 1 ≤ (new 2).registers.length ∧
      (new 0).registers.length = 0) ∧
    (hllIndex (new 2) 0 < (new 2).registers.length ∧
      add (new 2) 0 = some (addCore (new 2) 0) ∧ add (new 0) 0 = none) :=
  ⟨⟨by decide, by decide, by decide⟩,
    add_index_in_bounds (new 2) (new 0) 0 (by decide) (by decide) (by decide)⟩

/-- Claim C4: a freshly constructed estimator with at least one register
reports a count of exactly 0: the raw estimate 2 * alpha(m) * m stays
below 2.5 * m, every register is zero, and linear counting gives
m * ln (m / m) = 0. -/
theorem count_fresh_zero (m : Nat) (hm : 1 ≤ m) : count (new m) = 0 := by
  have hm0 : (m : ℚ) ≠ 0 := by
    have hpos : (0 : ℚ) < m := by exact_mod_cast hm
    exact hpos.ne'
  have hlen : (new m).registers.length = m := List.length_replicate m 0
  have hsum : regSum (new m) = (m : ℚ) := by
    show ((List.replicate m 0).map (fun mj => 1 / 2 ^ mj)).sum = (m : ℚ)
    rw [List.map_replicate]
    simp [List.sum_replicate]
  have hest : hll_cardinality (new m) = alpha m * 2 * (m : ℚ) := by
    show alpha ((new m).registers.length) * ((new m).registers.length : ℚ) *
      ((new m).registers.length : ℚ) * 2 * (1 / regSum (new m)) =
        alpha m * 2 * (m : ℚ)
    rw [hlen, hsum]
    field_simp
    ring
  have hle : ¬ (2.5 * ((new m).registers.length : ℚ) < hll_cardinality (new m)) := by
    rw [hest, hlen]
    refine not_lt.mpr ?_
    have ha : alpha m ≤ 1.25 := alpha_le_five_quarters m
    have hmnn : (0 : ℚ) ≤ (m : ℚ) := by positivity
    nlinarith [mul_nonneg (sub_nonneg.mpr ha) hmnn]
  have hzc : ((new m).registers.filter (fun n => n == 0)).length = m := by
    show ((List.replicate m 0).filter (fun n => n == 0)).length = m
    rw [List.filter_replicate_of_pos rfl]
    exact List.length_replicate m 0
  unfold count
  dsimp only
  rw [if_neg hle, hzc, if_neg (by omega : ¬ m = 0)]
  show ((new m).registers.length : ℝ) *
    Real.log (((new m).registers.length : ℝ) / (m : ℝ)) = 0
  rw [hlen, div_self (by exact_mod_cast hm0 : (m : ℝ) ≠ 0), Real.log_one,
    mul_zero]

/-- Witness for count_fresh_zero at m = 4. -/
theorem count_fresh_zero_witness : 1 ≤ 4 ∧ count (new 4) = 0 :=
  ⟨by decide, count_fresh_zero 4 (by decide)⟩

end HyperLogLog
